import Mathlib

/-!
Shallow embedding of `run_benchmarks.py`: a benchmark harness that drives an
external engine once per discovered algorithm, scrapes each run's log for
throughput and duration samples, aggregates them with `statistics.mean`, and
persists a JSON results table to `benchmark_results.json`.

Machine strings are modelled as `List Char` (or Lean `String`, whose data is a
`List Char`); Python exceptions are modelled with `Except`; the exact rational
value of `statistics.mean` over integer samples is modelled with `ℚ`.
-/

/-- Boolean test that the pattern `p` occurs literally at the start of `s`. -/
def isPre : List Char → List Char → Bool
  | [], _ => true
  | _ :: _, [] => false
  | a :: as, b :: bs => a == b && isPre as bs

/-- Numeric value of a digit string, as computed by Python `int` on a `\d+` match. -/
def digitsVal (ds : List Char) : Nat :=
  ds.foldl (fun a c => 10 * a + (c.toNat - 48)) 0

/-- The literal part of the throughput pattern `(\d+)k data points per second`. -/
def tpLit : List Char := "k data points per second".toList

/-- The literal part of the duration pattern ` completed in (\d+)`. -/
def durLit : List Char := " completed in ".toList

/-- One attempt of the regex engine to match `(\d+)k data points per second` at
the start of `s`: greedily take digits, then require the literal; on success
return the captured integer and the remainder of `s` after the whole match. -/
def matchTp (s : List Char) : Option (Nat × List Char) :=
  let ds := s.takeWhile Char.isDigit
  let rest := s.dropWhile Char.isDigit
  if ds ≠ [] ∧ isPre tpLit rest then some (digitsVal ds, rest.drop tpLit.length)
  else none

/-- One attempt of the regex engine to match ` completed in (\d+)` at the start
of `s`: require the literal, then greedily take at least one digit; on success
return the captured integer and the remainder of `s` after the digits. -/
def matchDur (s : List Char) : Option (Nat × List Char) :=
  if isPre durLit s then
    let t := s.drop durLit.length
    if t.takeWhile Char.isDigit ≠ [] then
      some (digitsVal (t.takeWhile Char.isDigit), t.dropWhile Char.isDigit)
    else none
  else none

/-- `re.findall` scanning for the throughput pattern: left to right, on a match
emit the captured integer and continue after the match, otherwise advance one
character.  Fuel-indexed so the recursion is structural; `s.length` fuel always
suffices (see `findallTpF_eq_tpOccs`). -/
def findallTpF : Nat → List Char → List Nat
  | 0, _ => []
  | _ + 1, [] => []
  | n + 1, c :: cs =>
    match matchTp (c :: cs) with
    | some (v, rest) => v :: findallTpF n rest
    | none => findallTpF n cs

/-- Line 51 of the harness: `re.findall(r"(\d+)k data points per second", line)`,
each match converted by `int`. -/
def findallTp (s : List Char) : List Nat := findallTpF s.length s

/-- `re.findall` scanning for the duration pattern, fuel-indexed. -/
def findallDurF : Nat → List Char → List Nat
  | 0, _ => []
  | _ + 1, [] => []
  | n + 1, c :: cs =>
    match matchDur (c :: cs) with
    | some (v, rest) => v :: findallDurF n rest
    | none => findallDurF n cs

/-- Line 54 of the harness: `re.findall(r" completed in (\d+)", line)`, each
match converted by `int`. -/
def findallDur (s : List Char) : List Nat := findallDurF s.length s

/-- Specification-side throughput extraction, following the claim's words: one
integer per occurrence of a (maximal) run of digits immediately followed by the
literal `k data points per second`, collected left to right. -/
def tpOccs : List Char → List Nat
  | [] => []
  | c :: cs =>
    if c.isDigit then
      (if isPre tpLit (cs.dropWhile Char.isDigit) then
        [digitsVal (c :: cs.takeWhile Char.isDigit)]
      else []) ++ tpOccs (cs.dropWhile Char.isDigit)
    else tpOccs cs
termination_by s => s.length
decreasing_by
  · simp only [List.length_cons]
    exact Nat.lt_succ_of_le (List.Sublist.length_le (List.dropWhile_sublist _))
  · simp only [List.length_cons]
    exact Nat.lt_succ_self _

/-- Specification-side duration extraction, following the claim's words: one
integer per occurrence (at any position of the text) of the literal
` completed in ` immediately followed by a run of digits. -/
def durOccs : List Char → List Nat
  | [] => []
  | c :: cs =>
    (match matchDur (c :: cs) with
     | some (v, _) => [v]
     | none => []) ++ durOccs cs

/-- Lines 48–55 of the harness: scan each line of the log in order, extending
the throughput and duration sample lists with that line's matches. -/
def scrapeLog (lines : List (List Char)) : List Nat × List Nat :=
  lines.foldl (fun acc line => (acc.1 ++ findallTp line, acc.2 ++ findallDur line)) ([], [])

/-- Suffix test, as in Python `str.endswith`. -/
def isSuf (t s : List Char) : Bool := isPre t.reverse s.reverse

/-- Python string comparison `<=`: lexicographic by code point. -/
def lexLe : List Char → List Char → Bool
  | [], _ => true
  | _ :: _, [] => false
  | a :: as, b :: bs => if a < b then true else if a == b then lexLe as bs else false

/-- Insert a filename into an already sorted list, keeping it sorted. -/
def insertLe (f : String) : List String → List String
  | [] => [f]
  | g :: gs => if lexLe f.toList g.toList then f :: g :: gs else g :: insertLe f gs

/-- Line 18: Python `sorted` over the directory listing. -/
def sortFiles : List String → List String
  | [] => []
  | f :: fs => insertLe f (sortFiles fs)

/-- Line 19: `algorithmFile.endswith(("py", "cs"))` — the same suffix pair is
used for both language directories. -/
def keepFile (f : String) : Bool :=
  isSuf "py".toList f.toList || isSuf "cs".toList f.toList

/-- `pathlib.PurePath(...).stem` on a bare filename: the name without its final
suffix; the suffix is dropped only when the last dot sits strictly inside the
name (neither at index 0 nor as the final character). -/
def pyStem (s : List Char) : List Char :=
  match s.reverse.findIdx? (· == '.') with
  | none => s
  | some j =>
    if 0 < s.length - 1 - j ∧ s.length - 1 - j < s.length - 1 then
      s.take (s.length - 1 - j)
    else s

/-- Line 21: `algorithmName = Path(algorithmFile).stem`. -/
def stemStr (f : String) : String := ⟨pyStem f.toList⟩

/-- Line 15: `baseDirectory[len("Algorithm") + 1 : baseDirectory.index("/")]`. -/
def languageOf (dir : String) : String :=
  ⟨(dir.toList.take (dir.toList.findIdx (· == '/'))).drop 10⟩

/-- Python `range(a, b)` as a list. -/
def pyRange (a b : Nat) : List Nat := (List.range (b - a)).map (a + ·)

/-- Python `dict` assignment `m[k] = v` on an insertion-ordered dictionary:
update in place when the key exists, else append. -/
def dictInsert {α : Type} : List (String × α) → String → α → List (String × α)
  | [], k, v => [(k, v)]
  | (k2, v2) :: rest, k, v =>
    if k2 = k then (k, v) :: rest else (k2, v2) :: dictInsert rest k v

/-- First-occurrence deduplication (the key sequence a Python dict ends up with
after inserting the given keys in order). -/
def dedupFirst (seen : List String) : List String → List String
  | [] => []
  | n :: ns => if n ∈ seen then dedupFirst seen ns else n :: dedupFirst (n :: seen) ns

/-- Lines 18–21 as a unit: the candidate algorithm files of one directory
listing, in sorted order. -/
def candidateFiles (files : List String) : List String :=
  (sortFiles files).filter keepFile

/-- Algorithm discovery: sorted, filtered by the suffix test, extension
stripped by `stem`. -/
def discover (files : List String) : List String :=
  (candidateFiles files).map stemStr

/-- `statistics.StatisticsError`, raised by `statistics.mean` on empty data. -/
inductive StatError where
  | statisticsError
deriving DecidableEq

/-- `statistics.mean`: the exact arithmetic mean of the samples, or
`StatisticsError` when there are no samples. -/
def mean (xs : List Nat) : Except StatError ℚ :=
  match xs with
  | [] => .error .statisticsError
  | _ => .ok ((xs.sum : ℚ) / (xs.length : ℚ))

/-- The per-algorithm record built on line 58: `average-dps`, `samples`,
`average-length`. -/
structure AggregatedMetric where
  averageDps : ℚ
  samples : List Nat
  averageLength : ℚ
deriving DecidableEq

/-- Lines 56–58: compute both means (line 56 first, so an empty throughput list
raises before the duration mean is attempted) and retain the raw samples. -/
def aggregate (tp dur : List Nat) : Except StatError AggregatedMetric := do
  let averageDps ← mean tp
  let averageLength ← mean dur
  pure { averageDps := averageDps, samples := tp, averageLength := averageLength }

/-- The two-level results mapping: language → algorithm name → metric. -/
abbrev ResultsTable := List (String × List (String × AggregatedMetric))

/-- The argument vector passed to `subprocess.run` on lines 28–38 (each flag and
its value form a single element, exactly as in the source's f-strings). -/
def engineArgs (dataPath language algorithmName algorithmLocation : String) : List String :=
  ["dotnet",
   "./QuantConnect.Lean.Launcher.dll",
   "--data-folder " ++ dataPath,
   "--algorithm-language " ++ language,
   "--algorithm-type-name " ++ algorithmName,
   "--algorithm-location " ++ algorithmLocation,
   "--log-handler ConsoleErrorLogHandler",
   "--close-automatically true"]

/-- One `subprocess.run` call: argument vector, working directory, and whether
stdout/stderr are redirected to `DEVNULL`. -/
structure Invocation where
  args : List String
  cwd : String
  stdoutSuppressed : Bool
  stderrSuppressed : Bool
deriving DecidableEq

/-- The invocation the harness performs for one algorithm (lines 28–42). -/
def invocationFor (dataPath language algorithmName algorithmLocation : String) : Invocation :=
  { args := engineArgs dataPath language algorithmName algorithmLocation
    cwd := "./Launcher/bin/Release"
    stdoutSuppressed := true
    stderrSuppressed := true }

/-- Line 22: the algorithm location handed to the engine — the compiled DLL for
CSharp, the source file path (joined by `os.path.join`) for Python. -/
def locationFor (language baseDir f : String) : String :=
  if language = "CSharp" then "QuantConnect.Algorithm.CSharp.dll"
  else "../../../" ++ baseDir ++ "/" ++ f

/-- Lines 44–46: `os.path.join("./Launcher/bin/Release", f"{name}-log.txt")`. -/
def logPathFor (algorithmName : String) : String :=
  "./Launcher/bin/Release/" ++ algorithmName ++ "-log.txt"

/-- Externally observable steps of the harness: engine invocations (tagged with
the loop's language and algorithm name), log-file opens and closes, and writes
of the results file.  The source never closes a log file, so `closeLog` is
never emitted; it is present so that absence of closing is expressible. -/
inductive Event where
  | invoke (language algorithmName : String) (inv : Invocation)
  | openLog (path : String)
  | closeLog (path : String)
  | write (path : String) (table : ResultsTable)
deriving DecidableEq

def isWriteEvent : Event → Bool
  | .write _ _ => true
  | _ => false

def isOpenEvent : Event → Bool
  | .openLog _ => true
  | _ => false

def isCloseEvent : Event → Bool
  | .closeLog _ => true
  | _ => false

def isInvokeEvent : Event → Bool
  | .invoke _ _ _ => true
  | _ => false

/-- Is this an engine invocation for the given language and algorithm name? -/
def isInvokeOf (language algorithmName : String) : Event → Bool
  | .invoke lg nm _ => lg == language && nm == algorithmName
  | _ => false

/-- Number of engine invocations for a given language and algorithm name. -/
def invokeCount (evs : List Event) (language algorithmName : String) : Nat :=
  (evs.filter (isInvokeOf language algorithmName)).length

/-- Lines 25–58, one algorithm: the repetition loop `for _ in range(1, 2)` runs
the engine, opens the log and scrapes it, accumulating both sample lists; then
both means are taken.  Returns the event trace and the aggregation outcome. -/
def runAlgorithm (dataPath language algorithmName location : String)
    (logLines : List (List Char)) : List Event × Except StatError AggregatedMetric :=
  let inv := invocationFor dataPath language algorithmName location
  let acc := (pyRange 1 2).foldl
    (fun (acc : List Event × List Nat × List Nat) _ =>
      let scraped := scrapeLog logLines
      (acc.1 ++ [Event.invoke language algorithmName inv,
                 Event.openLog (logPathFor algorithmName)],
       acc.2.1 ++ scraped.1, acc.2.2 ++ scraped.2))
    ([], [], [])
  (acc.1, aggregate acc.2.1 acc.2.2)

/-- Lines 18–59, one language directory: iterate the sorted listing, skip
non-matching files, run each algorithm and record its metric in the
insertion-ordered per-language dict.  An uncaught `StatisticsError` aborts the
iteration (no further files are processed). -/
def processFiles (dataPath language baseDir : String)
    (logs : String → List (List Char))
    (perLang : List (String × AggregatedMetric)) :
    List String → List Event × Except StatError (List (String × AggregatedMetric))
  | [] => ([], .ok perLang)
  | f :: fs =>
    if keepFile f then
      let nm := stemStr f
      let r := runAlgorithm dataPath language nm (locationFor language baseDir f) (logs nm)
      match r.2 with
      | .error e => (r.1, .error e)
      | .ok metric =>
        let rest := processFiles dataPath language baseDir logs
          (dictInsert perLang nm metric) fs
        (r.1 ++ rest.1, rest.2)
    else processFiles dataPath language baseDir logs perLang fs

/-- The harness environment: the CLI data path, the directory listings, and the
log text the engine leaves behind for a given language and algorithm name. -/
structure Env where
  dataPath : String
  listing : String → List String
  logs : String → String → List (List Char)

/-- Line 13: the two benchmark directories, in the order the source iterates. -/
def baseDirectories : List String :=
  ["Algorithm.CSharp/Benchmarks", "Algorithm.Python/Benchmarks"]

/-- Lines 13–61: process each base directory in turn, assigning
`results[language] = resultsPerLanguage` after the directory completes.  An
uncaught error aborts the remaining directories. -/
def processDirs (env : Env) (results : ResultsTable) :
    List String → List Event × Except StatError ResultsTable
  | [] => ([], .ok results)
  | dir :: dirs =>
    let lr := processFiles env.dataPath (languageOf dir) dir
      (env.logs (languageOf dir)) [] (sortFiles (env.listing dir))
    match lr.2 with
    | .error e => (lr.1, .error e)
    | .ok perLang =>
      let rest := processDirs env (dictInsert results (languageOf dir) perLang) dirs
      (lr.1 ++ rest.1, rest.2)

/-- The whole script: run both directories, then (lines 63–64) write the
results table to `benchmark_results.json` — reached only when no uncaught
exception aborted the run. -/
def runHarness (env : Env) : List Event × Except StatError ResultsTable :=
  let r := processDirs env [] baseDirectories
  match r.2 with
  | .error _ => r
  | .ok table => (r.1 ++ [Event.write "benchmark_results.json" table], .ok table)

/-- A small sanity environment: an empty CSharp directory and one Python
algorithm whose log yields one sample of each kind. -/
def envOk : Env :=
  { dataPath := "Data"
    listing := fun d => if d = "Algorithm.Python/Benchmarks" then ["Alpha.py"] else []
    logs := fun _ nm =>
      if nm = "Alpha" then
        ["10k data points per second".toList,
         "Backtest completed in 5 seconds".toList]
      else [] }

/-! ### Lemmas about the log-scraping patterns -/

theorem isPre_iff (p s : List Char) : isPre p s = true ↔ ∃ t, s = p ++ t := by
  induction p generalizing s with
  | nil => simp [isPre]
  | cons a as ih =>
    cases s with
    | nil =>
      simp only [isPre, List.cons_append]
      constructor
      · intro h; cases h
      · rintro ⟨t, h⟩; cases h
    | cons b bs =>
      simp only [isPre, Bool.and_eq_true, beq_iff_eq, List.cons_append, List.cons.injEq, ih]
      constructor
      · rintro ⟨rfl, t, rfl⟩; exact ⟨t, rfl, rfl⟩
      · rintro ⟨t, rfl, rfl⟩; exact ⟨rfl, t, rfl⟩

theorem mem_takeWhile_digit {c : Char} {l : List Char}
    (h : c ∈ l.takeWhile Char.isDigit) : c.isDigit = true :=
  List.mem_takeWhile_imp h

theorem dropWhile_digit_head {l : List Char} {r : Char} {rs : List Char}
    (h : l.dropWhile Char.isDigit = r :: rs) : r.isDigit = false := by
  induction l with
  | nil => cases h
  | cons a l ih =>
    by_cases ha : a.isDigit
    · rw [List.dropWhile_cons, if_pos ha] at h
      exact ih h
    · rw [List.dropWhile_cons, if_neg ha] at h
      cases h
      simpa using ha

theorem tpLit_no_digit : ∀ c ∈ tpLit, c.isDigit = false := by decide

theorem durLit_no_digit : ∀ c ∈ durLit, c.isDigit = false := by decide

/-- `matchTp` fails at a position that does not start with a digit. -/
theorem matchTp_none_of_not_digit {c : Char} (cs : List Char) (h : c.isDigit = false) :
    matchTp (c :: cs) = none := by
  simp [matchTp, List.takeWhile_cons, h]

/-- Inversion for a successful throughput match. -/
theorem matchTp_some {s : List Char} {v : Nat} {rest : List Char}
    (h : matchTp s = some (v, rest)) :
    s.takeWhile Char.isDigit ≠ [] ∧
      isPre tpLit (s.dropWhile Char.isDigit) = true ∧
      v = digitsVal (s.takeWhile Char.isDigit) ∧
      rest = (s.dropWhile Char.isDigit).drop tpLit.length := by
  unfold matchTp at h
  dsimp only at h
  split_ifs at h with hc
  · obtain ⟨h1, h2⟩ := hc
    injection h with h
    injection h with hv hr
    exact ⟨h1, h2, hv.symm, hr.symm⟩

/-- Inversion for a successful duration match: the text splits as the literal,
a nonempty digit run, and the remainder. -/
theorem matchDur_some {s : List Char} {v : Nat} {rest : List Char}
    (h : matchDur s = some (v, rest)) :
    ∃ ds, s = durLit ++ (ds ++ rest) ∧ ds ≠ [] ∧ (∀ c ∈ ds, c.isDigit = true) ∧
      v = digitsVal ds := by
  unfold matchDur at h
  dsimp only at h
  split_ifs at h with h1 h2
  · obtain ⟨t, rfl⟩ := (isPre_iff durLit _).mp h1
    rw [List.drop_left] at h h2
    injection h with h
    injection h with hv hr
    refine ⟨t.takeWhile Char.isDigit, ?_, h2, ?_, hv.symm⟩
    · rw [← hr, List.takeWhile_append_dropWhile]
    · intro c hc; exact mem_takeWhile_digit hc

theorem matchDur_none_of_not_pre {s : List Char} (h : isPre durLit s = false) :
    matchDur s = none := by
  simp [matchDur, h]

/-- The key non-overlap fact: the duration literal cannot match at a position
from which, within the literal's length, a digit character appears — because
the literal itself contains no digit. -/
theorem durLit_not_pre_of_digit {u : List Char} {d : Char} {zs : List Char}
    (hu : u.length < durLit.length) (hd : d.isDigit = true) :
    isPre durLit (u ++ d :: zs) = false := by
  by_contra h
  rw [Bool.not_eq_false, isPre_iff] at h
  obtain ⟨t, ht⟩ := h
  have hdrop : (durLit ++ t).drop u.length = (u ++ d :: zs).drop u.length := by rw [ht]
  rw [List.drop_append_eq_append_drop, List.drop_left] at hdrop
  rw [Nat.sub_eq_zero_of_le (le_of_lt hu), List.drop_zero] at hdrop
  cases he : durLit.drop u.length with
  | nil =>
    have hlen := congrArg List.length he
    rw [List.length_drop, List.length_nil] at hlen
    omega
  | cons e es =>
    rw [he] at hdrop
    have hde : e = d := by
      have := hdrop
      simp only [List.cons_append] at this
      exact (List.cons.injEq _ _ _ _).mp this |>.1
    have hmem : e ∈ durLit := List.drop_subset _ _ (he ▸ List.mem_cons_self e es)
    have := durLit_no_digit e hmem
    rw [hde, hd] at this
    cases this

/-- Skipping characters that can start no duration match leaves `durOccs`
unchanged. -/
theorem durOccs_skip {w r : List Char}
    (h : ∀ t, t <:+ w → t ≠ [] → matchDur (t ++ r) = none) :
    durOccs (w ++ r) = durOccs r := by
  induction w with
  | nil => rfl
  | cons a w ih =>
    have h1 : matchDur ((a :: w) ++ r) = none :=
      h (a :: w) (List.suffix_refl _) (by simp)
    simp only [List.cons_append] at h1 ⊢
    rw [durOccs, h1]
    simp only [List.nil_append]
    exact ih fun t ht hne => h t (List.IsSuffix.trans ht (List.suffix_cons a w)) hne

/-- Skipping digit-free characters leaves `tpOccs` unchanged, because every
throughput occurrence starts with a digit. -/
theorem tpOccs_append_noDigit {u : List Char} (t : List Char)
    (h : ∀ c ∈ u, c.isDigit = false) : tpOccs (u ++ t) = tpOccs t := by
  induction u with
  | nil => rfl
  | cons a u ih =>
    have ha : a.isDigit = false := h a (List.mem_cons_self a u)
    rw [List.cons_append, tpOccs]
    simp only [ha, Bool.false_eq_true, if_false]
    exact ih fun c hc => h c (List.mem_cons_of_mem a hc)

/-- When no throughput literal follows the leading digit run, `tpOccs` of a
text equals `tpOccs` of the text with its leading digit run removed. -/
theorem tpOccs_dropWhile (cs : List Char)
    (hp : isPre tpLit (cs.dropWhile Char.isDigit) = false) :
    tpOccs cs = tpOccs (cs.dropWhile Char.isDigit) := by
  cases cs with
  | nil => rfl
  | cons d cs' =>
    by_cases hd : d.isDigit
    · rw [List.dropWhile_cons, if_pos hd] at hp ⊢
      rw [tpOccs]
      simp only [hd, if_true, hp, Bool.false_eq_true, if_false, List.nil_append]
    · rw [List.dropWhile_cons, if_neg hd]

/-- The scanning semantics of `re.findall` for the throughput pattern agrees
with the occurrence count: one integer per maximal digit run immediately
followed by the literal. -/
theorem findallTpF_eq_tpOccs : ∀ n s, s.length ≤ n → findallTpF n s = tpOccs s := by
  intro n
  induction n with
  | zero =>
    intro s h
    have hs : s = [] := List.length_eq_zero.mp (Nat.le_zero.mp h)
    subst hs; simp [findallTpF, tpOccs]
  | succ n ih =>
    intro s h
    match s with
    | [] => simp [findallTpF, tpOccs]
    | c :: cs =>
      rw [List.length_cons, Nat.succ_le_succ_iff] at h
      by_cases hd : c.isDigit
      · by_cases hp : isPre tpLit (cs.dropWhile Char.isDigit) = true
        · have hm : matchTp (c :: cs) =
              some (digitsVal (c :: cs.takeWhile Char.isDigit),
                    (cs.dropWhile Char.isDigit).drop tpLit.length) := by
            unfold matchTp
            dsimp only
            rw [List.takeWhile_cons, List.dropWhile_cons, if_pos hd, if_pos hd,
              if_pos ⟨by simp, hp⟩]
          obtain ⟨t, ht⟩ := (isPre_iff tpLit _).mp hp
          have hdw : (cs.dropWhile Char.isDigit).length ≤ cs.length :=
            List.Sublist.length_le (List.dropWhile_sublist _)
          have hlen : ((cs.dropWhile Char.isDigit).drop tpLit.length).length ≤ n := by
            rw [List.length_drop]; omega
          rw [findallTpF, hm]
          dsimp only
          rw [ih _ hlen, tpOccs]
          simp only [hd, if_true, hp, if_true]
          rw [ht, List.drop_left, tpOccs_append_noDigit t tpLit_no_digit,
            List.singleton_append]
        · have hp' : isPre tpLit (cs.dropWhile Char.isDigit) = false :=
            Bool.not_eq_true _ ▸ Bool.of_not_eq_true hp
          have hm : matchTp (c :: cs) = none := by
            unfold matchTp
            dsimp only
            rw [List.dropWhile_cons, if_pos hd,
              if_neg (by rw [hp']; exact fun hc => Bool.false_ne_true hc.2)]
          rw [findallTpF, hm]
          dsimp only
          rw [ih cs h, tpOccs]
          simp only [hd, if_true, hp', Bool.false_eq_true, if_false, List.nil_append]
          exact tpOccs_dropWhile cs hp'
      · have hd' : c.isDigit = false := Bool.of_not_eq_true hd
        rw [findallTpF, matchTp_none_of_not_digit cs hd']
        dsimp only
        rw [ih cs h, tpOccs]
        simp only [hd', Bool.false_eq_true, if_false]

theorem findallTp_eq_tpOccs (s : List Char) : findallTp s = tpOccs s :=
  findallTpF_eq_tpOccs s.length s le_rfl

/-- The scanning semantics of `re.findall` for the duration pattern agrees with
the occurrence count: one integer per position where the literal occurs with a
digit run right after it. -/
theorem findallDurF_eq_durOccs : ∀ n s, s.length ≤ n → findallDurF n s = durOccs s := by
  intro n
  induction n with
  | zero =>
    intro s h
    have hs : s = [] := List.length_eq_zero.mp (Nat.le_zero.mp h)
    subst hs; rfl
  | succ n ih =>
    intro s h
    match s with
    | [] => rfl
    | c :: cs =>
      rw [List.length_cons, Nat.succ_le_succ_iff] at h
      cases hm : matchDur (c :: cs) with
      | none =>
        rw [findallDurF, hm, durOccs, hm]
        dsimp only
        rw [ih cs h, List.nil_append]
      | some p =>
        obtain ⟨v, rest⟩ := p
        obtain ⟨ds, hs2, hne, hdig, hv⟩ := matchDur_some hm
        have hlit : durLit = ' ' :: "completed in ".toList := by decide
        have hcs : c :: cs = ' ' :: ("completed in ".toList ++ (ds ++ rest)) := by
          rw [hs2, hlit]; rfl
        have hcseq : cs = "completed in ".toList ++ (ds ++ rest) :=
          (List.cons.injEq _ _ _ _).mp hcs |>.2
        have hlen : rest.length ≤ n := by
          have := congrArg List.length hcseq
          simp only [List.length_append] at this
          omega
        rw [findallDurF, hm, durOccs, hm]
        dsimp only
        rw [ih rest hlen]
        obtain ⟨d, ds', rfl⟩ : ∃ d ds', ds = d :: ds' := by
          cases ds with
          | nil => exact absurd rfl hne
          | cons d ds' => exact ⟨d, ds', rfl⟩
        have hddig : d.isDigit = true := hdig d (List.mem_cons_self d ds')
        have hskip1 : durOccs ("completed in ".toList ++ ((d :: ds') ++ rest)) =
            durOccs ((d :: ds') ++ rest) := by
          apply durOccs_skip
          intro t hts htne
          apply matchDur_none_of_not_pre
          have hlt : t.length < durLit.length := by
            have h1 : t.length ≤ ("completed in ".toList).length :=
              List.IsSuffix.length_le hts
            have h2 : ("completed in ".toList).length < durLit.length := by decide
            omega
          have : t ++ ((d :: ds') ++ rest) = t ++ d :: (ds' ++ rest) := by simp
          rw [this]
          exact durLit_not_pre_of_digit hlt hddig
        have hskip2 : durOccs ((d :: ds') ++ rest) = durOccs rest := by
          apply durOccs_skip
          intro t hts htne
          apply matchDur_none_of_not_pre
          obtain ⟨e, t', rfl⟩ : ∃ e t', t = e :: t' := by
            cases t with
            | nil => exact absurd rfl htne
            | cons e t' => exact ⟨e, t', rfl⟩
          have hedig : e.isDigit = true :=
            hdig e (List.IsSuffix.subset hts (List.mem_cons_self e t'))
          have hlt : ([] : List Char).length < durLit.length := by decide
          have : (e :: t') ++ rest = ([] : List Char) ++ e :: (t' ++ rest) := by simp
          rw [this]
          exact durLit_not_pre_of_digit hlt hedig
        rw [hcseq, hskip1, hskip2, List.singleton_append]

theorem findallDur_eq_durOccs (s : List Char) : findallDur s = durOccs s :=
  findallDurF_eq_durOccs s.length s le_rfl

/-- `scrapeLog` concatenates the per-line matches, lines in order. -/
theorem scrapeLog_eq_flatten : ∀ (lines : List (List Char)) (a b : List Nat),
    lines.foldl (fun acc line => (acc.1 ++ findallTp line, acc.2 ++ findallDur line)) (a, b) =
      (a ++ (lines.map findallTp).flatten, b ++ (lines.map findallDur).flatten) := by
  intro lines
  induction lines with
  | nil => intro a b; simp
  | cons l ls ih =>
    intro a b
    simp only [List.foldl_cons, List.map_cons, List.flatten_cons, ih, List.append_assoc]

/-! ### Structural lemmas about the harness -/

theorem languageOf_cs : languageOf "Algorithm.CSharp/Benchmarks" = "CSharp" := by decide

theorem languageOf_py : languageOf "Algorithm.Python/Benchmarks" = "Python" := by decide

/-- The events one algorithm run contributes to the trace. -/
def algEvents (dp lang dir f : String) : List Event :=
  [Event.invoke lang (stemStr f) (invocationFor dp lang (stemStr f) (locationFor lang dir f)),
   Event.openLog (logPathFor (stemStr f))]

/-- The repetition loop runs exactly once (`range(1, 2)`), invoking the engine
and scraping the log a single time before aggregating. -/
theorem runAlgorithm_eq (dp lang nm location : String) (L : List (List Char)) :
    runAlgorithm dp lang nm location L =
      ([Event.invoke lang nm (invocationFor dp lang nm location),
        Event.openLog (logPathFor nm)],
       aggregate (scrapeLog L).1 (scrapeLog L).2) := rfl

theorem dictInsert_keys_mem {α : Type} (m : List (String × α)) (k : String) (v : α)
    (h : k ∈ m.map Prod.fst) : (dictInsert m k v).map Prod.fst = m.map Prod.fst := by
  induction m with
  | nil => simp at h
  | cons p m ih =>
    by_cases hk : p.1 = k
    · obtain ⟨k2, v2⟩ := p
      simp only at hk
      simp [dictInsert, hk]
    · obtain ⟨k2, v2⟩ := p
      simp only at hk
      simp only [List.map_cons, List.mem_cons] at h
      rcases h with h | h
      · exact absurd h.symm hk
      · simp [dictInsert, hk, ih h]

theorem dictInsert_keys_not_mem {α : Type} (m : List (String × α)) (k : String) (v : α)
    (h : k ∉ m.map Prod.fst) : (dictInsert m k v).map Prod.fst = m.map Prod.fst ++ [k] := by
  induction m with
  | nil => simp [dictInsert]
  | cons p m ih =>
    obtain ⟨k2, v2⟩ := p
    simp only [List.map_cons, List.mem_cons, not_or] at h
    have hne : k2 ≠ k := fun hh => h.1 hh.symm
    rw [dictInsert, if_neg hne]
    simp [ih h.2]

/-- `dedupFirst` only inspects membership of the seen set. -/
theorem dedupFirst_congr (s1 s2 : List String) (l : List String)
    (h : ∀ x, x ∈ s1 ↔ x ∈ s2) : dedupFirst s1 l = dedupFirst s2 l := by
  induction l generalizing s1 s2 with
  | nil => rfl
  | cons n ns ih =>
    by_cases hn : n ∈ s1
    · rw [dedupFirst, if_pos hn, dedupFirst, if_pos ((h n).mp hn)]
      exact ih s1 s2 h
    · rw [dedupFirst, if_neg hn, dedupFirst, if_neg (fun hc => hn ((h n).mpr hc))]
      refine congrArg _ (ih (n :: s1) (n :: s2) fun x => ?_)
      simp [h x]

/-- Success shape of one directory's loop: the trace is the per-candidate
blocks in sorted order, and the per-language keys extend the initial keys by
the first occurrence of each discovered name. -/
theorem processFiles_ok : ∀ (fs : List String) (dp lang dir : String)
    (logs : String → List (List Char)) (pl : List (String × AggregatedMetric))
    (evs : List Event) (pl' : List (String × AggregatedMetric)),
    processFiles dp lang dir logs pl fs = (evs, .ok pl') →
    evs = ((fs.filter keepFile).map (algEvents dp lang dir)).flatten ∧
      pl'.map Prod.fst =
        pl.map Prod.fst ++ dedupFirst (pl.map Prod.fst) ((fs.filter keepFile).map stemStr) := by
  intro fs
  induction fs with
  | nil =>
    intro dp lang dir logs pl evs pl' h
    rw [processFiles] at h
    injection h with h1 h2
    injection h2 with h2
    subst h1; subst h2
    simp [dedupFirst]
  | cons f fs ih =>
    intro dp lang dir logs pl evs pl' h
    rw [processFiles] at h
    by_cases hk : keepFile f = true
    · rw [if_pos hk] at h
      dsimp only at h
      rw [runAlgorithm_eq] at h
      dsimp only at h
      cases hagg : aggregate (scrapeLog (logs (stemStr f))).1 (scrapeLog (logs (stemStr f))).2 with
      | error e => rw [hagg] at h; cases h
      | ok metric =>
        rw [hagg] at h
        dsimp only at h
        rcases hrest : processFiles dp lang dir logs (dictInsert pl (stemStr f) metric) fs
          with ⟨evs2, r2⟩
        rw [hrest] at h
        injection h with h1 h2
        cases r2 with
        | error e => cases h2
        | ok plr =>
          injection h2 with h2
          subst h2
          obtain ⟨he, hkeys⟩ := ih dp lang dir logs (dictInsert pl (stemStr f) metric) evs2 plr hrest
          constructor
          · rw [← h1, he]
            simp [List.filter_cons, hk, algEvents]
          · rw [hkeys]
            simp only [List.filter_cons, hk, if_true, List.map_cons]
            by_cases hmem : stemStr f ∈ pl.map Prod.fst
            · rw [dictInsert_keys_mem pl _ metric hmem]
              rw [dedupFirst, if_pos hmem]
            · rw [dictInsert_keys_not_mem pl _ metric hmem]
              rw [dedupFirst, if_neg hmem]
              rw [List.append_assoc, List.singleton_append]
              refine congrArg _ (congrArg _ ?_)
              refine dedupFirst_congr _ _ _ fun x => ?_
              simp [or_comm]
    · rw [if_neg hk] at h
      obtain ⟨he, hkeys⟩ := ih dp lang dir logs pl evs pl' h
      have hk' : keepFile f = false := Bool.of_not_eq_true hk
      constructor
      · rw [he]; simp [List.filter_cons, hk']
      · rw [hkeys]; simp [List.filter_cons, hk']

/-- Every event a directory loop emits is an engine invocation (tagged with
this loop's language, with the invocation the source constructs) or a log-file
open. -/
theorem processFiles_events : ∀ (fs : List String) (dp lang dir : String)
    (logs : String → List (List Char)) (pl : List (String × AggregatedMetric))
    (e : Event), e ∈ (processFiles dp lang dir logs pl fs).1 →
    (∃ f, keepFile f = true ∧
        e = Event.invoke lang (stemStr f)
              (invocationFor dp lang (stemStr f) (locationFor lang dir f))) ∨
    (∃ nm, e = Event.openLog (logPathFor nm)) := by
  intro fs
  induction fs with
  | nil =>
    intro dp lang dir logs pl e he
    rw [processFiles] at he
    cases he
  | cons f fs ih =>
    intro dp lang dir logs pl e he
    rw [processFiles] at he
    by_cases hk : keepFile f = true
    · rw [if_pos hk] at he
      dsimp only at he
      rw [runAlgorithm_eq] at he
      dsimp only at he
      cases hagg : aggregate (scrapeLog (logs (stemStr f))).1 (scrapeLog (logs (stemStr f))).2 with
      | error e2 =>
        rw [hagg] at he
        dsimp only at he
        simp only [List.mem_cons, List.not_mem_nil, or_false] at he
        rcases he with rfl | rfl
        · exact Or.inl ⟨f, hk, rfl⟩
        · exact Or.inr ⟨stemStr f, rfl⟩
      | ok metric =>
        rw [hagg] at he
        dsimp only at he
        simp only [List.cons_append, List.nil_append, List.mem_cons] at he
        rcases he with rfl | rfl | he
        · exact Or.inl ⟨f, hk, rfl⟩
        · exact Or.inr ⟨stemStr f, rfl⟩
        · exact ih dp lang dir logs _ e he
    · rw [if_neg hk] at he
      exact ih dp lang dir logs pl e he

/-- Every event in the directory fold's trace comes from one of the processed
directories. -/
theorem processDirs_events : ∀ (dirs : List String) (env : Env) (results : ResultsTable)
    (e : Event), e ∈ (processDirs env results dirs).1 →
    ∃ dir, dir ∈ dirs ∧
      e ∈ (processFiles env.dataPath (languageOf dir) dir (env.logs (languageOf dir)) []
            (sortFiles (env.listing dir))).1 := by
  intro dirs
  induction dirs with
  | nil =>
    intro env results e he
    rw [processDirs] at he
    cases he
  | cons dir dirs ih =>
    intro env results e he
    rw [processDirs] at he
    dsimp only at he
    cases hlr : (processFiles env.dataPath (languageOf dir) dir (env.logs (languageOf dir)) []
        (sortFiles (env.listing dir))).2 with
    | error e2 =>
      rw [hlr] at he
      dsimp only at he
      exact ⟨dir, List.mem_cons_self dir dirs, he⟩
    | ok perLang =>
      rw [hlr] at he
      dsimp only at he
      rcases List.mem_append.mp he with he | he
      · exact ⟨dir, List.mem_cons_self dir dirs, he⟩
      · obtain ⟨dir2, hd2, he2⟩ := ih env _ e he
        exact ⟨dir2, List.mem_cons_of_mem dir hd2, he2⟩

theorem processDirs_cons_err (env : Env) (results : ResultsTable) (dir : String)
    (dirs : List String) (evs : List Event) (e : StatError)
    (h : processFiles env.dataPath (languageOf dir) dir (env.logs (languageOf dir)) []
          (sortFiles (env.listing dir)) = (evs, .error e)) :
    processDirs env results (dir :: dirs) = (evs, .error e) := by
  rw [processDirs]
  dsimp only
  rw [h]

theorem processDirs_cons_ok (env : Env) (results : ResultsTable) (dir : String)
    (dirs : List String) (evs : List Event) (perLang : List (String × AggregatedMetric))
    (h : processFiles env.dataPath (languageOf dir) dir (env.logs (languageOf dir)) []
          (sortFiles (env.listing dir)) = (evs, .ok perLang)) :
    processDirs env results (dir :: dirs) =
      (evs ++ (processDirs env (dictInsert results (languageOf dir) perLang) dirs).1,
       (processDirs env (dictInsert results (languageOf dir) perLang) dirs).2) := by
  rw [processDirs]
  dsimp only
  rw [h]

/-- Every event in the whole trace is an event of one of the two directory
loops or the single final write of the results file. -/
theorem runHarness_events (env : Env) (e : Event) (he : e ∈ (runHarness env).1) :
    (∃ dir, dir ∈ baseDirectories ∧
        e ∈ (processFiles env.dataPath (languageOf dir) dir (env.logs (languageOf dir)) []
              (sortFiles (env.listing dir))).1) ∨
    ∃ tb, e = Event.write "benchmark_results.json" tb := by
  unfold runHarness at he
  dsimp only at he
  cases hr : (processDirs env [] baseDirectories).2 with
  | error e2 =>
    rw [hr] at he
    dsimp only at he
    exact Or.inl (processDirs_events baseDirectories env [] e he)
  | ok table =>
    rw [hr] at he
    dsimp only at he
    rcases List.mem_append.mp he with he | he
    · exact Or.inl (processDirs_events baseDirectories env [] e he)
    · rw [List.mem_singleton] at he
      exact Or.inr ⟨table, he⟩

/-- Success shape of the whole run: both directory loops succeed, the table is
exactly their two entries in source order, and the trace is their traces
followed by the single write. -/
theorem runHarness_ok (env : Env) (table : ResultsTable)
    (h : (runHarness env).2 = .ok table) :
    ∃ evsC evsP pcs pps,
      processFiles env.dataPath "CSharp" "Algorithm.CSharp/Benchmarks"
          (env.logs "CSharp") [] (sortFiles (env.listing "Algorithm.CSharp/Benchmarks")) =
        (evsC, .ok pcs) ∧
      processFiles env.dataPath "Python" "Algorithm.Python/Benchmarks"
          (env.logs "Python") [] (sortFiles (env.listing "Algorithm.Python/Benchmarks")) =
        (evsP, .ok pps) ∧
      table = [("CSharp", pcs), ("Python", pps)] ∧
      (runHarness env).1 = (evsC ++ evsP) ++ [Event.write "benchmark_results.json" table] := by
  rcases hC : processFiles env.dataPath "CSharp" "Algorithm.CSharp/Benchmarks"
      (env.logs "CSharp") [] (sortFiles (env.listing "Algorithm.CSharp/Benchmarks")) with ⟨evsC, rC⟩
  rcases hP : processFiles env.dataPath "Python" "Algorithm.Python/Benchmarks"
      (env.logs "Python") [] (sortFiles (env.listing "Algorithm.Python/Benchmarks")) with ⟨evsP, rP⟩
  have hC' : processFiles env.dataPath (languageOf "Algorithm.CSharp/Benchmarks")
      "Algorithm.CSharp/Benchmarks" (env.logs (languageOf "Algorithm.CSharp/Benchmarks")) []
      (sortFiles (env.listing "Algorithm.CSharp/Benchmarks")) = (evsC, rC) := by
    rw [languageOf_cs]; exact hC
  have hP' : processFiles env.dataPath (languageOf "Algorithm.Python/Benchmarks")
      "Algorithm.Python/Benchmarks" (env.logs (languageOf "Algorithm.Python/Benchmarks")) []
      (sortFiles (env.listing "Algorithm.Python/Benchmarks")) = (evsP, rP) := by
    rw [languageOf_py]; exact hP
  have hbase : baseDirectories =
      "Algorithm.CSharp/Benchmarks" :: ["Algorithm.Python/Benchmarks"] := rfl
  cases rC with
  | error e =>
    have hd : processDirs env [] baseDirectories = (evsC, .error e) := by
      rw [hbase]; exact processDirs_cons_err env [] _ _ evsC e hC'
    unfold runHarness at h
    dsimp only at h
    rw [hd] at h
    cases h
  | ok pcs =>
    have hd : processDirs env [] baseDirectories =
        (evsC ++ (processDirs env [("CSharp", pcs)] ["Algorithm.Python/Benchmarks"]).1,
         (processDirs env [("CSharp", pcs)] ["Algorithm.Python/Benchmarks"]).2) := by
      rw [hbase]
      have := processDirs_cons_ok env [] _ ["Algorithm.Python/Benchmarks"] evsC pcs hC'
      rw [languageOf_cs] at this
      exact this
    cases rP with
    | error e =>
      have hd2 : processDirs env [("CSharp", pcs)] ["Algorithm.Python/Benchmarks"] =
          (evsP, .error e) :=
        processDirs_cons_err env _ _ _ evsP e hP'
      unfold runHarness at h
      dsimp only at h
      rw [hd, hd2] at h
      cases h
    | ok pps =>
      have hd2 : processDirs env [("CSharp", pcs)] ["Algorithm.Python/Benchmarks"] =
          (evsP ++ [], .ok (dictInsert [("CSharp", pcs)] "Python" pps)) := by
        have := processDirs_cons_ok env [("CSharp", pcs)] "Algorithm.Python/Benchmarks" [] evsP pps hP'
        rw [languageOf_py] at this
        rw [this, processDirs]
      have hins : dictInsert [("CSharp", pcs)] "Python" pps =
          [("CSharp", pcs), ("Python", pps)] := by
        rw [dictInsert, if_neg (by decide), dictInsert]
      rw [hins, List.append_nil] at hd2
      have hfull : runHarness env =
          ((evsC ++ evsP) ++
             [Event.write "benchmark_results.json" [("CSharp", pcs), ("Python", pps)]],
           .ok [("CSharp", pcs), ("Python", pps)]) := by
        unfold runHarness
        rw [hd, hd2]
      have htab : table = [("CSharp", pcs), ("Python", pps)] := by
        rw [hfull] at h
        injection h with h
        exact h.symm
      refine ⟨evsC, evsP, pcs, pps, rfl, rfl, htab, ?_⟩
      rw [hfull, htab]

/-- A directory loop writes no results file. -/
theorem processFiles_trace_no_write {fs : List String} {dp lang dir : String}
    {logs : String → List (List Char)} {pl : List (String × AggregatedMetric)}
    {evs : List Event} {r : Except StatError (List (String × AggregatedMetric))}
    (h : processFiles dp lang dir logs pl fs = (evs, r)) :
    evs.filter isWriteEvent = [] := by
  rw [List.filter_eq_nil_iff]
  intro e he
  have he2 : e ∈ (processFiles dp lang dir logs pl fs).1 := by rw [h]; exact he
  rcases processFiles_events fs dp lang dir logs pl e he2 with ⟨f, -, rfl⟩ | ⟨nm, rfl⟩ <;>
    simp [isWriteEvent]

/-- The harness never emits a close event: the source opens each log file but
never calls `close` on it. -/
theorem runHarness_no_close (env : Env) :
    ((runHarness env).1.filter isCloseEvent) = [] := by
  rw [List.filter_eq_nil_iff]
  intro e he
  rcases runHarness_events env e he with ⟨dir, -, hin⟩ | ⟨tb, rfl⟩
  · rcases processFiles_events _ _ _ _ _ _ e hin with ⟨f, -, rfl⟩ | ⟨nm, rfl⟩ <;>
      simp [isCloseEvent]
  · simp [isCloseEvent]

theorem invokeCount_append (evs1 evs2 : List Event) (lang nm : String) :
    invokeCount (evs1 ++ evs2) lang nm = invokeCount evs1 lang nm + invokeCount evs2 lang nm := by
  unfold invokeCount
  rw [List.filter_append, List.length_append]

/-- A directory loop for one language contributes no invocations counted under
another language. -/
theorem invokeCount_trace_of_ne {fs : List String} {dp lang dir : String}
    {logs : String → List (List Char)} {pl : List (String × AggregatedMetric)}
    {evs : List Event} {r : Except StatError (List (String × AggregatedMetric))}
    (h : processFiles dp lang dir logs pl fs = (evs, r))
    (lang' nm : String) (hne : lang ≠ lang') :
    invokeCount evs lang' nm = 0 := by
  unfold invokeCount
  rw [List.length_eq_zero, List.filter_eq_nil_iff]
  intro e he
  have he2 : e ∈ (processFiles dp lang dir logs pl fs).1 := by rw [h]; exact he
  rcases processFiles_events fs dp lang dir logs pl e he2 with ⟨f, -, rfl⟩ | ⟨nm2, rfl⟩
  · simp [isInvokeOf, hne]
  · simp [isInvokeOf]

/-- Counting invocations in the per-candidate blocks of one language's trace:
one per candidate whose stem is the name asked for. -/
theorem invokeCount_blocks (dp lang dir : String) (cands : List String) (nm : String) :
    invokeCount ((cands.map (algEvents dp lang dir)).flatten) lang nm =
      (cands.map stemStr).count nm := by
  induction cands with
  | nil => rfl
  | cons f cs ih =>
    simp only [List.map_cons, List.flatten_cons]
    rw [invokeCount_append, ih, List.count_cons]
    by_cases hf : stemStr f = nm
    · simp [invokeCount, algEvents, isInvokeOf, hf, Nat.add_comm]
    · simp [invokeCount, algEvents, isInvokeOf, hf, Nat.add_comm]

theorem opens_blocks (dp lang dir : String) (cands : List String) :
    (((cands.map (algEvents dp lang dir)).flatten).filter isOpenEvent).length =
      cands.length := by
  induction cands with
  | nil => rfl
  | cons f cs ih =>
    simp only [List.map_cons, List.flatten_cons, List.filter_append, List.length_append, ih]
    simp [algEvents, isOpenEvent, Nat.add_comm]

theorem invokes_blocks (dp lang dir : String) (cands : List String) :
    (((cands.map (algEvents dp lang dir)).flatten).filter isInvokeEvent).length =
      cands.length := by
  induction cands with
  | nil => rfl
  | cons f cs ih =>
    simp only [List.map_cons, List.flatten_cons, List.filter_append, List.length_append, ih]
    simp [algEvents, isInvokeEvent, Nat.add_comm]

/-! ### The persisted JSON document -/

/-- A JSON value, as far as this harness's output is concerned. -/
inductive Json where
  | num (q : ℚ)
  | str (s : String)
  | arr (elems : List Json)
  | obj (fields : List (String × Json))

/-- `json.dump` of one per-algorithm record (source line 58): an object with
exactly the keys `average-dps`, `samples`, `average-length`, in that order. -/
def jsonOfMetric (m : AggregatedMetric) : Json :=
  .obj [("average-dps", .num m.averageDps),
        ("samples", .arr (m.samples.map fun s => .num (s : ℚ))),
        ("average-length", .num m.averageLength)]

/-- `json.dump` of the whole results table: language → algorithm → record,
keys in insertion order. -/
def jsonOfTable (t : ResultsTable) : Json :=
  .obj (t.map fun p => (p.1, .obj (p.2.map fun q => (q.1, jsonOfMetric q.2))))

/-- The shape the specification requires of one algorithm's record. -/
def metricShape : Json → Prop
  | .obj [(k1, .num _), (k2, .arr xs), (k3, .num _)] =>
      k1 = "average-dps" ∧ k2 = "samples" ∧ k3 = "average-length" ∧
        ∀ x ∈ xs, ∃ q, x = .num q
  | _ => False

/-- The shape the specification requires of the whole document: an object of
objects of records. -/
def tableShape : Json → Prop
  | .obj langs => ∀ p ∈ langs, ∃ fields, p.2 = .obj fields ∧ ∀ q ∈ fields, metricShape q.2
  | _ => False

theorem tableShape_jsonOfTable (t : ResultsTable) : tableShape (jsonOfTable t) := by
  unfold jsonOfTable tableShape
  intro p hp
  rw [List.mem_map] at hp
  obtain ⟨q, -, rfl⟩ := hp
  refine ⟨q.2.map fun r => (r.1, jsonOfMetric r.2), rfl, ?_⟩
  intro r hr
  rw [List.mem_map] at hr
  obtain ⟨m, -, rfl⟩ := hr
  unfold jsonOfMetric metricShape
  refine ⟨rfl, rfl, rfl, ?_⟩
  intro x hx
  rw [List.mem_map] at hx
  obtain ⟨s, -, rfl⟩ := hx
  exact ⟨(s : ℚ), rfl⟩

/-! ### Claim theorems -/

/-- C2: for every log text, the scraper returns one integer per occurrence of a
maximal digit run immediately followed by `k data points per second`, and one
integer per occurrence of ` completed in ` immediately followed by a digit run,
collected in line order then file order; in particular the two-line log yields
throughput `[42]` and duration `[17]`. -/
theorem c2_log_scraper_patterns :
    (∀ lines : List (List Char),
        scrapeLog lines = ((lines.map tpOccs).flatten, (lines.map durOccs).flatten)) ∧
    scrapeLog ["42k data points per second".toList,
               "Backtest completed in 17 seconds".toList] = ([42], [17]) := by
  constructor
  · intro lines
    have hT : findallTp = tpOccs := funext findallTp_eq_tpOccs
    have hD : findallDur = durOccs := funext findallDur_eq_durOccs
    unfold scrapeLog
    rw [scrapeLog_eq_flatten lines [] [], hT, hD, List.nil_append, List.nil_append]
  · decide

/-- C4: aggregation over an empty sample sequence fails with an explicit
`StatisticsError` instead of producing a value; a log with no matching lines
scrapes to two empty sequences. -/
theorem c4_empty_mean_error :
    scrapeLog ["initializing engine".toList, "no samples in this line".toList] = ([], []) ∧
    (∀ tp dur : List Nat, tp = [] ∨ dur = [] →
        aggregate tp dur = .error .statisticsError) := by
  constructor
  · decide
  · intro tp dur h
    rcases h with rfl | rfl
    · rfl
    · cases tp with
      | nil => rfl
      | cons a tp => rfl

/-- Witness for C4 at a concrete empty throughput sequence. -/
theorem c4_empty_mean_error_witness :
    aggregate [] [7] = .error .statisticsError :=
  c4_empty_mean_error.2 [] [7] (Or.inl rfl)

/-- C5: for nonempty sample sequences the aggregator returns exactly
`sum / length` for both averages and retains the sample list unmodified. -/
theorem c5_mean_exact (S D : List Nat) (hS : S ≠ []) (hD : D ≠ []) :
    aggregate S D =
      .ok { averageDps := (S.sum : ℚ) / (S.length : ℚ)
            samples := S
            averageLength := (D.sum : ℚ) / (D.length : ℚ) } := by
  cases S with
  | nil => exact absurd rfl hS
  | cons a S =>
    cases D with
    | nil => exact absurd rfl hD
    | cons b D => rfl

/-- Witness for C5 at concrete samples. -/
theorem c5_mean_exact_witness :
    aggregate [10, 11] [5] =
      .ok { averageDps := 21 / 2, samples := [10, 11], averageLength := 5 } := by
  rw [c5_mean_exact [10, 11] [5] (by decide) (by decide)]
  with_unfolding_all rfl

/-- The environment of the specification's end-to-end scenario: `Alpha` has a
log with matching lines, `Beta` an empty log. -/
def envC1 : Env :=
  { dataPath := "Data"
    listing := fun d => if d = "Algorithm.Python/Benchmarks" then ["Alpha.py", "Beta.py"] else []
    logs := fun _ nm =>
      if nm = "Alpha" then
        ["10k data points per second".toList,
         "Backtest completed in 5 seconds".toList]
      else [] }

/-- C1: the code does not isolate `Beta`'s failure.  `Alpha` aggregates
successfully in memory and both algorithms are invoked, but the uncaught
`StatisticsError` raised on `Beta`'s empty sample list aborts the run, so no
results file is ever written — `Alpha`'s metrics are lost instead of persisted
alongside a failure entry for `Beta`. -/
theorem c1_empty_log_aborts_run :
    (runHarness envC1).2 = .error .statisticsError ∧
    ((runHarness envC1).1.filter isWriteEvent) = [] ∧
    (runAlgorithm "Data" "Python" "Alpha"
        (locationFor "Python" "Algorithm.Python/Benchmarks" "Alpha.py")
        (envC1.logs "Python" "Alpha")).2 =
      .ok { averageDps := 10, samples := [10], averageLength := 5 } ∧
    invokeCount (runHarness envC1).1 "Python" "Alpha" = 1 ∧
    invokeCount (runHarness envC1).1 "Python" "Beta" = 1 := by
  refine ⟨?_, ?_, ?_, ?_, ?_⟩ <;> with_unfolding_all rfl

/-- C3 counterexample: with directory entries `A.py`, `B.cs`, `README.md`,
`C.py`, discovery in the Python directory does not return `["A", "C"]` — there
is no per-language suffix filter in the code. -/
theorem c3_per_language_filter_false :
    discover ["A.py", "B.cs", "README.md", "C.py"] ≠ ["A", "C"] := by decide

/-- C3 amended: discovery sorts the listing and keeps every entry ending in
`py` or `cs` regardless of the directory's language, stripping the final
extension; the scenario directory therefore yields `["A", "B", "C"]`,
including `B.cs`, and only `README.md` is skipped. -/
theorem c3_shared_suffix_discovery :
    discover ["A.py", "B.cs", "README.md", "C.py"] = ["A", "B", "C"] ∧
    keepFile "B.cs" = true ∧ keepFile "README.md" = false := by decide

/-- Environment for the C6 counterexample: three Python algorithms; `B`'s log
is empty, so the run aborts before `C` is reached. -/
def envC6 : Env :=
  { dataPath := "Data"
    listing := fun d => if d = "Algorithm.Python/Benchmarks" then ["A.py", "B.py", "C.py"] else []
    logs := fun _ nm =>
      if nm = "B" then []
      else ["10k data points per second".toList,
            "Backtest completed in 5 seconds".toList] }

/-- C6 counterexample: `C` is a discovered candidate, but in this execution it
is never invoked — the uncaught error on `B` ends the run first — so "exactly
one invocation per discovered candidate in every execution" is false. -/
theorem c6_not_every_candidate_invoked :
    ¬ (∀ dir ∈ baseDirectories, ∀ nm ∈ discover (envC6.listing dir),
        invokeCount (runHarness envC6).1 (languageOf dir) nm = 1) := by
  intro hall
  have h1 := hall "Algorithm.Python/Benchmarks" (by decide) "C" (by decide)
  have h2 : invokeCount (runHarness envC6).1 (languageOf "Algorithm.Python/Benchmarks") "C" = 0 := by
    with_unfolding_all rfl
  exact Nat.zero_ne_one (h2.symm.trans h1)

/-- C6 amended: the repetition loop runs exactly once, so in an execution that
completes without an uncaught error every discovered candidate is invoked
exactly once (once per occurrence of its name among the discovered list), and
every execution pairs each invocation with exactly one log scrape. -/
theorem c6_amended_once_per_candidate (env : Env) (table : ResultsTable)
    (h : (runHarness env).2 = .ok table) :
    (∀ dir ∈ baseDirectories, ∀ nm : String,
        invokeCount (runHarness env).1 (languageOf dir) nm =
          (discover (env.listing dir)).count nm) ∧
    ((runHarness env).1.filter isOpenEvent).length =
      ((runHarness env).1.filter isInvokeEvent).length := by
  obtain ⟨evsC, evsP, pcs, pps, hC, hP, htab, htr⟩ := runHarness_ok env table h
  obtain ⟨heC, -⟩ := processFiles_ok _ _ _ _ _ _ _ _ hC
  obtain ⟨heP, -⟩ := processFiles_ok _ _ _ _ _ _ _ _ hP
  constructor
  · intro dir hdir nm
    rw [htr, invokeCount_append, invokeCount_append]
    have hw : invokeCount [Event.write "benchmark_results.json" table] (languageOf dir) nm = 0 :=
      rfl
    simp only [baseDirectories, List.mem_cons, List.not_mem_nil, or_false] at hdir
    rcases hdir with rfl | rfl
    · rw [languageOf_cs]
      have h0 : invokeCount evsP "CSharp" nm = 0 :=
        invokeCount_trace_of_ne hP "CSharp" nm (by decide)
      rw [languageOf_cs] at hw
      rw [hw, h0, heC, invokeCount_blocks]
      simp [discover, candidateFiles]
    · rw [languageOf_py]
      have h0 : invokeCount evsC "Python" nm = 0 :=
        invokeCount_trace_of_ne hC "Python" nm (by decide)
      rw [languageOf_py] at hw
      rw [hw, h0, heP, invokeCount_blocks]
      simp [discover, candidateFiles]
  · rw [htr]
    simp only [List.filter_append, List.length_append]
    rw [heC, heP, opens_blocks, opens_blocks, invokes_blocks, invokes_blocks]
    simp [isOpenEvent, isInvokeEvent]

/-- Witness for the amended C6 at the concrete environment `envOk`. -/
theorem c6_amended_witness :
    invokeCount (runHarness envOk).1 "Python" "Alpha" =
      (discover (envOk.listing "Algorithm.Python/Benchmarks")).count "Alpha" := by
  have h := c6_amended_once_per_candidate envOk
    [("CSharp", []), ("Python", [("Alpha", { averageDps := 10, samples := [10], averageLength := 5 })])]
    (by with_unfolding_all rfl)
  have h2 := h.1 "Algorithm.Python/Benchmarks" (by decide) "Alpha"
  rw [languageOf_py] at h2
  exact h2

/-- C7: on a completed run the trace contains exactly one write, as its last
event, targeting `benchmark_results.json`; the table's language keys are
`CSharp` then `Python` in source order; each language's algorithm keys follow
discovery order (first occurrence); and the serialized document is an object of
objects of `average-dps`/`samples`/`average-length` records. -/
theorem c7_persisted_output (env : Env) (table : ResultsTable)
    (h : (runHarness env).2 = .ok table) :
    ((runHarness env).1.filter isWriteEvent) = [Event.write "benchmark_results.json" table] ∧
    (runHarness env).1.getLast? = some (Event.write "benchmark_results.json" table) ∧
    table.map Prod.fst = ["CSharp", "Python"] ∧
    (∀ p ∈ table, ∃ dir, dir ∈ baseDirectories ∧ languageOf dir = p.1 ∧
        p.2.map Prod.fst = dedupFirst [] (discover (env.listing dir))) ∧
    tableShape (jsonOfTable table) := by
  obtain ⟨evsC, evsP, pcs, pps, hC, hP, htab, htr⟩ := runHarness_ok env table h
  obtain ⟨-, hkC⟩ := processFiles_ok _ _ _ _ _ _ _ _ hC
  obtain ⟨-, hkP⟩ := processFiles_ok _ _ _ _ _ _ _ _ hP
  refine ⟨?_, ?_, ?_, ?_, tableShape_jsonOfTable table⟩
  · rw [htr]
    simp only [List.filter_append, processFiles_trace_no_write hC,
      processFiles_trace_no_write hP]
    simp [isWriteEvent]
  · rw [htr, List.getLast?_concat]
  · rw [htab]; rfl
  · intro p hp
    rw [htab] at hp
    simp only [List.mem_cons, List.not_mem_nil, or_false] at hp
    rcases hp with rfl | rfl
    · refine ⟨"Algorithm.CSharp/Benchmarks", by decide, languageOf_cs, ?_⟩
      rw [hkC]
      simp [discover, candidateFiles]
    · refine ⟨"Algorithm.Python/Benchmarks", by decide, languageOf_py, ?_⟩
      rw [hkP]
      simp [discover, candidateFiles]

/-- Witness for C7 at the concrete environment `envOk`. -/
theorem c7_persisted_output_witness :
    ((runHarness envOk).1.filter isWriteEvent) =
      [Event.write "benchmark_results.json"
        [("CSharp", []),
         ("Python", [("Alpha", { averageDps := 10, samples := [10], averageLength := 5 })])]] :=
  (c7_persisted_output envOk
    [("CSharp", []),
     ("Python", [("Alpha", { averageDps := 10, samples := [10], averageLength := 5 })])]
    (by with_unfolding_all rfl)).1

/-- C8: every engine invocation in any trace uses exactly the fixed flag set,
with the language tag `CSharp` or `Python`, runs in the fixed working directory
`./Launcher/bin/Release`, and has stdout and stderr suppressed. -/
theorem c8_engine_command (env : Env) (lang nm : String) (inv : Invocation)
    (h : Event.invoke lang nm inv ∈ (runHarness env).1) :
    (lang = "CSharp" ∨ lang = "Python") ∧
    inv.cwd = "./Launcher/bin/Release" ∧
    inv.stdoutSuppressed = true ∧
    inv.stderrSuppressed = true ∧
    ∃ loc, inv.args =
      ["dotnet", "./QuantConnect.Lean.Launcher.dll",
       "--data-folder " ++ env.dataPath,
       "--algorithm-language " ++ lang,
       "--algorithm-type-name " ++ nm,
       "--algorithm-location " ++ loc,
       "--log-handler ConsoleErrorLogHandler",
       "--close-automatically true"] := by
  rcases runHarness_events env _ h with ⟨dir, hdir, hin⟩ | ⟨tb, heq⟩
  · rcases processFiles_events _ _ _ _ _ _ _ hin with ⟨f, hkf, heq⟩ | ⟨nm2, heq⟩
    · injection heq with h1 h2 h3
      subst h1
      subst h2
      subst h3
      refine ⟨?_, rfl, rfl, rfl, ⟨locationFor (languageOf dir) dir f, rfl⟩⟩
      simp only [baseDirectories, List.mem_cons, List.not_mem_nil, or_false] at hdir
      rcases hdir with rfl | rfl
      · exact Or.inl languageOf_cs
      · exact Or.inr languageOf_py
    · exact Event.noConfusion heq
  · exact Event.noConfusion heq

/-- Witness for C8 at the invocation `envOk`'s run performs for `Alpha`. -/
theorem c8_engine_command_witness :
    ((invocationFor "Data" "Python" "Alpha"
        (locationFor "Python" "Algorithm.Python/Benchmarks" "Alpha.py")).cwd =
      "./Launcher/bin/Release") ∧
    ∃ loc, (invocationFor "Data" "Python" "Alpha"
        (locationFor "Python" "Algorithm.Python/Benchmarks" "Alpha.py")).args =
      ["dotnet", "./QuantConnect.Lean.Launcher.dll",
       "--data-folder " ++ envOk.dataPath,
       "--algorithm-language " ++ "Python",
       "--algorithm-type-name " ++ "Alpha",
       "--algorithm-location " ++ loc,
       "--log-handler ConsoleErrorLogHandler",
       "--close-automatically true"] := by
  have h := c8_engine_command envOk "Python" "Alpha"
    (invocationFor "Data" "Python" "Alpha"
      (locationFor "Python" "Algorithm.Python/Benchmarks" "Alpha.py"))
    (by decide)
  exact ⟨h.2.1, h.2.2.2.2⟩

/-- Lifecycle check used by C9: `true` when no log is opened while the
previously opened log is still unclosed (the Boolean tracks an open file). -/
def logLifecycleOk : List Event → Bool → Bool
  | [], _ => true
  | Event.openLog _ :: evs, openNow => if openNow then false else logLifecycleOk evs true
  | Event.closeLog _ :: evs, _ => logLifecycleOk evs false
  | _ :: evs, openNow => logLifecycleOk evs openNow

/-- Two well-behaved Python algorithms, for the C9 counterexample. -/
def envC9 : Env :=
  { dataPath := "Data"
    listing := fun d => if d = "Algorithm.Python/Benchmarks" then ["A.py", "B.py"] else []
    logs := fun _ _ => ["10k data points per second".toList,
                        "Backtest completed in 5 seconds".toList] }

/-- C9 counterexample: the second algorithm's log is opened while the first
log was never closed — the open/consume/close-before-next discipline the claim
asserts does not hold on the trace. -/
theorem c9_log_never_closed_counterexample :
    logLifecycleOk (runHarness envC9).1 false = false ∧
    ((runHarness envC9).1.filter isOpenEvent).length = 2 := by
  constructor <;> with_unfolding_all rfl

/-- C9 amended: each repetition opens and fully scrapes the log, but the
harness never emits a close for any log file in any environment — closing is
left to the language runtime, not done before the next repetition or
algorithm. -/
theorem c9_amended_no_close (env : Env) :
    ((runHarness env).1.filter isCloseEvent) = [] :=
  runHarness_no_close env

/-- C10: a completed run's table has exactly the keys `CSharp` then `Python`,
and a language whose directory discovers no algorithms still contributes its
key, mapped to an empty mapping. -/
theorem c10_language_keys (env : Env) (table : ResultsTable)
    (h : (runHarness env).2 = .ok table) :
    table.map Prod.fst = ["CSharp", "Python"] ∧
    (∀ dir ∈ baseDirectories, discover (env.listing dir) = [] →
        List.lookup (languageOf dir) table = some []) := by
  obtain ⟨evsC, evsP, pcs, pps, hC, hP, htab, htr⟩ := runHarness_ok env table h
  obtain ⟨-, hkC⟩ := processFiles_ok _ _ _ _ _ _ _ _ hC
  obtain ⟨-, hkP⟩ := processFiles_ok _ _ _ _ _ _ _ _ hP
  constructor
  · rw [htab]; rfl
  · intro dir hdir hdisc
    simp only [baseDirectories, List.mem_cons, List.not_mem_nil, or_false] at hdir
    rcases hdir with rfl | rfl
    · have hd2 : ((sortFiles (env.listing "Algorithm.CSharp/Benchmarks")).filter
          keepFile).map stemStr = [] := hdisc
      have hnil : pcs = [] := by
        have hm : pcs.map Prod.fst = [] := by
          rw [hkC, hd2]
          rfl
        exact List.map_eq_nil_iff.mp hm
      rw [languageOf_cs, htab, hnil]
      rfl
    · have hd2 : ((sortFiles (env.listing "Algorithm.Python/Benchmarks")).filter
          keepFile).map stemStr = [] := hdisc
      have hnil : pps = [] := by
        have hm : pps.map Prod.fst = [] := by
          rw [hkP, hd2]
          rfl
        exact List.map_eq_nil_iff.mp hm
      rw [languageOf_py, htab, hnil]
      rfl

/-- Witness for C10 at the concrete environment `envOk`, whose CSharp
directory is empty. -/
theorem c10_language_keys_witness :
    List.lookup "CSharp"
      ([("CSharp", []),
        ("Python", [("Alpha", { averageDps := 10, samples := [10], averageLength := 5 })])] :
        ResultsTable) = some [] := by
  have h := c10_language_keys envOk
    [("CSharp", []),
     ("Python", [("Alpha", { averageDps := 10, samples := [10], averageLength := 5 })])]
    (by with_unfolding_all rfl)
  have h2 := h.2 "Algorithm.CSharp/Benchmarks" (by decide) (by decide)
  rw [languageOf_cs] at h2
  exact h2
